import Mathlib

/-
  Verification of the Hybrid Logical Clock of src/lib/Basics/HybridLogicalClock.h.

  The shallow embedding models uint64_t values as natural numbers, with an
  explicit `% 2 ^ 64` wherever the C++ arithmetic can wrap.  The lock-free
  retry loops of getTimeStamp() / getTimeStamp(received) are modelled by the
  body of one successful attempt: `tickStep physical old` (resp.
  `updateStep physical old received`) is the value stored and returned by the
  attempt whose compare-and-swap succeeds, where `old` is the shared value it
  read and `physical` its physical-time reading.  Sequential executions are
  modelled by `runOps`.
-/

namespace HLC

/-- The uint64_t modulus. -/
def U64 : Nat := 2 ^ 64

/-- From the source (line 136): `extractTime(t) = t >> 20`. -/
def extractTime (t : Nat) : Nat := t >>> 20

/-- From the source (line 140): `extractCount(t) = t & 0xfffff`. -/
def extractCount (t : Nat) : Nat := t &&& 0xfffff

/-- From the source (line 144): `assembleTimeStamp(time, count) = (time << 20) | count`,
on uint64_t, so the shift wraps modulo 2^64. -/
def assembleTimeStamp (time count : Nat) : Nat := ((time <<< 20) % U64) ||| count

/-- The spec's packing operation, written from the spec's words (section 3):
`timestamp = (time << 20) | counter` on 64-bit values, with the shift by 20
read as multiplication by 2^20. -/
def pack (time count : Nat) : Nat := ((time * 2 ^ 20) % U64) ||| count

/-- One successful attempt of `getTimeStamp()` (source lines 46-59), the
spec's `tick`: `physical` is the physical-time reading and `old` the shared
value read by this attempt; the result is both stored and returned. -/
def tickStep (physical old : Nat) : Nat :=
  if physical ≤ extractTime old then
    assembleTimeStamp (extractTime old) (extractCount old + 1)
  else
    assembleTimeStamp physical 0

/-- One successful attempt of `getTimeStamp(receivedTimeStamp)` (source lines
62-93), the spec's `update`.  Note the faithful reproduction of the source's
counter extraction: lines 76, 79 and 84 call `extractCount` on the already
shifted values `oldTime` / `recTime`, not on the packed inputs. -/
def updateStep (physical old received : Nat) : Nat :=
  let oldTime := extractTime old
  let recTime := extractTime received
  let newTime := max (max oldTime physical) recTime
  let newCount :=
    if newTime = oldTime then
      if newTime = recTime then
        max (extractCount oldTime) (extractCount recTime) + 1
      else
        extractCount oldTime + 1
    else
      if newTime = recTime then
        extractCount recTime + 1
      else
        0
  assembleTimeStamp newTime newCount

/-- One operation of a sequential execution: a `tick` call with a given
physical-time reading, or an `update` call with a physical-time reading and a
received timestamp. -/
inductive ClockOp where
  | tick (physical : Nat)
  | update (physical : Nat) (received : Nat)

/-- The value stored and returned by one operation, from shared state `st`. -/
def opStep (st : Nat) : ClockOp → Nat
  | ClockOp.tick p => tickStep p st
  | ClockOp.update p r => updateStep p st r

/-- Sequential execution: the list of values returned by a sequence of
operations starting from shared state `st` (each successful compare-and-swap
takes the stored value from the old value to the returned one). -/
def runOps (st : Nat) : List ClockOp → List Nat
  | [] => []
  | op :: ops => opStep st op :: runOps (opStep st op) ops

/-- Modelled from the spec: the 64-symbol alphabet of the string codec.  The
table `encodeTable` is only declared in the header (line 148); its definition
lives in a translation unit that is not part of src/.  The spec requires a
fixed 64-symbol alphabet whose character order matches the 6-bit value order,
which this list satisfies (strictly increasing character codes). -/
def alphabet : List Char :=
  ['-', '0', '1', '2', '3', '4', '5', '6', '7', '8', '9',
   'A', 'B', 'C', 'D', 'E', 'F', 'G', 'H', 'I', 'J', 'K', 'L', 'M',
   'N', 'O', 'P', 'Q', 'R', 'S', 'T', 'U', 'V', 'W', 'X', 'Y', 'Z',
   '_',
   'a', 'b', 'c', 'd', 'e', 'f', 'g', 'h', 'i', 'j', 'k', 'l', 'm',
   'n', 'o', 'p', 'q', 'r', 's', 't', 'u', 'v', 'w', 'x', 'y', 'z']

/-- Modelled from the spec: the encode table as a function from 6-bit values
to characters (the source's `encodeTable[v]`, whose definition is outside
src/). -/
def encodeTableFn (v : Nat) : Char := alphabet.getD v '-'

/-- Modelled from the spec: the decode table (the source's `decodeTable[c]`,
whose definition is outside src/): the 6-bit value of an alphabet character,
and a negative entry for every character outside the alphabet. -/
def decodeTableFn (c : Char) : Int :=
  if List.indexOf c alphabet < 64 then (List.indexOf c alphabet : Int) else -1

/-- The C++ `static_cast<uint8_t>` applied to a (possibly negative) char
value. -/
def u8 (x : Int) : Nat := (x % 256).toNat

/-- The digit loop of `encodeTimeStamp` (source lines 95-103): repeatedly
split off the low 6 bits (`t & 0x3f`), shifting by `t >>= 6`, writing
right-to-left into an 11-slot buffer.  The loop therefore runs at most 11
times, and 11 iterations always exhaust a uint64_t, so the fuel is not a
restriction on the modelled domain. -/
def encodeAux (etable : Nat → Char) : Nat → Nat → List Char
  | 0, _ => []
  | fuel + 1, t =>
    if t = 0 then [] else encodeAux etable fuel (t >>> 6) ++ [etable (t &&& 0x3f)]

/-- `encodeTimeStamp` (source lines 95-103), parametric in the encode table;
the result models the returned std::string as its character list. -/
def encodeTimeStamp (etable : Nat → Char) (t : Nat) : List Char :=
  encodeAux etable 11 t

/-- `decodeTimeStamp` (source lines 105-112), parametric in the decode table:
`r = (r << 6) | uint8_t(decodeTable[c])` over the characters, on uint64_t. -/
def decodeTimeStamp (dtable : Char → Int) (s : List Char) : Nat :=
  s.foldl (fun r c => ((r <<< 6) % U64) ||| u8 (dtable c)) 0

/-- The loop of `decodeTimeStampWithCheck` (source lines 114-125): stop and
return 0 as soon as a negative table entry is met. -/
def decodeCheckAux (dtable : Char → Int) : Nat → List Char → Nat
  | r, [] => r
  | r, c :: cs =>
    if dtable c < 0 then 0
    else decodeCheckAux dtable (((r <<< 6) % U64) ||| u8 (dtable c)) cs

/-- `decodeTimeStampWithCheck` (source lines 114-125), parametric in the
decode table. -/
def decodeTimeStampWithCheck (dtable : Char → Int) (s : List Char) : Nat :=
  decodeCheckAux dtable 0 s

/-- The digit sequence produced by the encode loop, most significant first. -/
def digitsAux : Nat → Nat → List Nat
  | 0, _ => []
  | fuel + 1, t => if t = 0 then [] else digitsAux fuel (t >>> 6) ++ [t &&& 0x3f]

/-- The numeric value of a most-significant-first base-64 digit list. -/
def natVal : List Nat → Nat
  | [] => 0
  | d :: l => d * 64 ^ l.length + natVal l

theorem lor_ne_zero_right (a b : Nat) (hb : b ≠ 0) : a ||| b ≠ 0 := by
  intro h
  apply hb
  apply Nat.eq_of_testBit_eq
  intro i
  have hi := congrArg (fun x => Nat.testBit x i) h
  simp only [Nat.testBit_lor, Nat.zero_testBit] at hi
  simp [Bool.or_eq_false_iff.mp hi, Nat.zero_testBit]

theorem lor_ne_zero_left (a b : Nat) (ha : a ≠ 0) : a ||| b ≠ 0 := by
  rw [Nat.lor_comm]
  exact lor_ne_zero_right b a ha

theorem assembleTimeStamp_pos (time count : Nat) (ht : time < 2 ^ 44)
    (h : 1 ≤ time ∨ 1 ≤ count) : 1 ≤ assembleTimeStamp time count := by
  unfold assembleTimeStamp U64
  rcases h with h | h
  · apply Nat.pos_of_ne_zero
    apply lor_ne_zero_left
    rw [Nat.shiftLeft_eq, Nat.mod_eq_of_lt]
    · intro hz
      rcases Nat.mul_eq_zero.mp hz with h0 | h0
      · omega
      · exact absurd h0 (by positivity)
    · calc time * 2 ^ 20 < 2 ^ 44 * 2 ^ 20 :=
            (Nat.mul_lt_mul_right (by norm_num)).mpr ht
        _ = 2 ^ 64 := by norm_num
  · exact Nat.pos_of_ne_zero (lor_ne_zero_right _ _ (by omega))

theorem extractTime_lt (t : Nat) (h : t < 2 ^ 64) : extractTime t < 2 ^ 44 := by
  unfold extractTime
  rw [Nat.shiftRight_eq_div_pow]
  omega

theorem encodeAux_eq_map (etable : Nat → Char) :
    ∀ fuel t, encodeAux etable fuel t = (digitsAux fuel t).map etable := by
  intro fuel
  induction fuel with
  | zero => intro t; rfl
  | succ fuel ih =>
    intro t
    unfold encodeAux digitsAux
    split
    · rfl
    · rw [List.map_append, ih]
      rfl

theorem digitsAux_mem_lt : ∀ fuel t d, d ∈ digitsAux fuel t → d < 64 := by
  intro fuel
  induction fuel with
  | zero => intro t d h; simp [digitsAux] at h
  | succ fuel ih =>
    intro t d h
    unfold digitsAux at h
    split at h
    · simp at h
    · rcases List.mem_append.mp h with h | h
      · exact ih _ _ h
      · simp at h
        subst h
        have : t &&& 0x3f ≤ 0x3f := Nat.and_le_right
        omega

theorem shiftRight6_eq (t : Nat) : t >>> 6 = t / 64 := by
  rw [Nat.shiftRight_eq_div_pow]

theorem land63_eq (t : Nat) : t &&& 0x3f = t % 64 := by
  have h : (0x3f : Nat) = 2 ^ 6 - 1 := by norm_num
  rw [h, Nat.and_pow_two_sub_one_eq_mod]

theorem natVal_append_singleton : ∀ (l : List Nat) (d : Nat),
    natVal (l ++ [d]) = natVal l * 64 + d := by
  intro l
  induction l with
  | nil => intro d; simp [natVal]
  | cons x l ih =>
    intro d
    simp only [List.cons_append, natVal, List.append_eq, ih, List.length_append,
      List.length_cons, List.length_nil]
    ring

theorem natVal_digitsAux : ∀ fuel t, t < 64 ^ fuel → natVal (digitsAux fuel t) = t := by
  intro fuel
  induction fuel with
  | zero => intro t h; interval_cases t; rfl
  | succ fuel ih =>
    intro t h
    unfold digitsAux
    split
    · subst t; rfl
    · rw [natVal_append_singleton, shiftRight6_eq, land63_eq, ih]
      · omega
      · rw [Nat.div_lt_iff_lt_mul (by norm_num)]
        calc t < 64 ^ (fuel + 1) := h
          _ = 64 ^ fuel * 64 := by rw [Nat.pow_succ]

theorem digitsAux_length_le : ∀ fuel t, (digitsAux fuel t).length ≤ fuel := by
  intro fuel
  induction fuel with
  | zero => intro t; simp [digitsAux]
  | succ fuel ih =>
    intro t
    unfold digitsAux
    split
    · simp
    · simp only [List.length_append, List.length_cons, List.length_nil]
      have := ih (t >>> 6)
      omega

theorem digitsAux_eq_nil (fuel t : Nat) (h : t < 64 ^ fuel)
    (hd : digitsAux fuel t = []) : t = 0 := by
  cases fuel with
  | zero => simpa using h
  | succ fuel =>
    unfold digitsAux at hd
    split at hd
    · assumption
    · simp at hd

theorem digitsAux_head_ne_zero : ∀ fuel t x l, t < 64 ^ fuel →
    digitsAux fuel t = x :: l → x ≠ 0 := by
  intro fuel
  induction fuel with
  | zero => intro t x l _ hd; simp [digitsAux] at hd
  | succ fuel ih =>
    intro t x l ht hd
    unfold digitsAux at hd
    split at hd
    · simp at hd
    · rename_i htz
      have hlt : t >>> 6 < 64 ^ fuel := by
        rw [shiftRight6_eq, Nat.div_lt_iff_lt_mul (by norm_num)]
        calc t < 64 ^ (fuel + 1) := ht
          _ = 64 ^ fuel * 64 := by rw [Nat.pow_succ]
      cases hrec : digitsAux fuel (t >>> 6) with
      | nil =>
        rw [hrec] at hd
        simp at hd
        have h0 : t >>> 6 = 0 := digitsAux_eq_nil fuel _ hlt hrec
        rw [shiftRight6_eq] at h0
        rw [land63_eq] at hd
        omega
      | cons y ys =>
        rw [hrec] at hd
        simp at hd
        rcases hd with ⟨hyx, -⟩
        rw [← hyx]
        exact ih _ y ys hlt hrec

theorem mul_pow_lor_eq_add (a d k : Nat) (h : d < 2 ^ k) :
    (a * 2 ^ k) ||| d = a * 2 ^ k + d := by
  apply Nat.eq_of_testBit_eq
  intro i
  rw [Nat.testBit_lor, Nat.mul_comm a (2 ^ k), Nat.testBit_mul_pow_two_add a h i,
    Nat.testBit_mul_pow_two]
  by_cases hik : i < k
  · simp [hik, Nat.not_le.mpr hik]
  · have hge : k ≤ i := Nat.not_lt.mp hik
    have hd : d.testBit i = false :=
      Nat.testBit_lt_two_pow (lt_of_lt_of_le h (Nat.pow_le_pow_right (by norm_num) hge))
    simp [hik, hge, hd]

theorem u8_coe (d : Nat) (h : d < 256) : u8 (d : Int) = d := by
  unfold u8
  rw [Int.emod_eq_of_lt (by positivity) (by exact_mod_cast h)]
  exact Int.toNat_natCast d

theorem decode_foldl (etable : Nat → Char) (dtable : Char → Int)
    (hinv : ∀ v, v < 64 → dtable (etable v) = (v : Int)) :
    ∀ (l : List Nat) (r : Nat), (∀ d ∈ l, d < 64) →
      r * 64 ^ l.length + natVal l < 2 ^ 64 →
      List.foldl (fun r c => ((r <<< 6) % U64) ||| u8 (dtable c)) r (l.map etable) =
        r * 64 ^ l.length + natVal l := by
  intro l
  induction l with
  | nil => intro r _ _; simp [natVal]
  | cons d l ih =>
    intro r hmem hbound
    have hd64 : d < 64 := hmem d (by simp)
    have hpow : (64 : Nat) ^ l.length ≥ 1 := Nat.one_le_pow _ _ (by norm_num)
    have hval : natVal (d :: l) = d * 64 ^ l.length + natVal l := rfl
    have hb' : r * 64 ^ (l.length + 1) + natVal (d :: l) < 2 ^ 64 := by
      simpa using hbound
    have hr64 : r * 64 + d < 2 ^ 64 := by
      have h1 : (r * 64 + d) * 64 ^ l.length = r * 64 ^ (l.length + 1) + d * 64 ^ l.length := by
        rw [Nat.add_mul, Nat.pow_succ]
        ring
      calc r * 64 + d ≤ (r * 64 + d) * 64 ^ l.length :=
            Nat.le_mul_of_pos_right _ hpow
        _ = r * 64 ^ (l.length + 1) + d * 64 ^ l.length := h1
        _ ≤ r * 64 ^ (l.length + 1) + natVal (d :: l) := by rw [hval]; omega
        _ < 2 ^ 64 := hb'
    have hstep : ((r <<< 6) % U64) ||| u8 (dtable (etable d)) = r * 64 + d := by
      rw [hinv d hd64, u8_coe d (by omega), Nat.shiftLeft_eq]
      have h64 : (2 : Nat) ^ 6 = 64 := by norm_num
      rw [h64]
      rw [Nat.mod_eq_of_lt (show r * 64 < U64 by unfold U64; omega)]
      have := mul_pow_lor_eq_add r d 6 (by omega)
      rw [h64] at this
      exact this
    simp only [List.map_cons, List.foldl_cons, hstep]
    rw [ih (r * 64 + d) (fun x hx => hmem x (by simp [hx]))]
    · simp only [natVal, List.length_cons]
      ring
    · calc (r * 64 + d) * 64 ^ l.length + natVal l
          = r * 64 ^ (l.length + 1) + (d * 64 ^ l.length + natVal l) := by
            rw [Nat.add_mul, Nat.pow_succ]; ring
        _ = r * 64 ^ (d :: l).length + natVal (d :: l) := by
            simp [natVal, List.length_cons]
        _ < 2 ^ 64 := hbound

theorem encodeTableFn_ne_zero_symbol (x : Nat) (hx : x < 64) (hnz : x ≠ 0) :
    encodeTableFn x ≠ encodeTableFn 0 := by
  revert hnz
  revert hx
  revert x
  decide

theorem decodeTableFn_neg_iff (c : Char) : decodeTableFn c < 0 ↔ c ∉ alphabet := by
  unfold decodeTableFn
  have hlen : alphabet.length = 64 := by decide
  have hmem : List.indexOf c alphabet < 64 ↔ c ∈ alphabet := by
    rw [← hlen]
    exact List.indexOf_lt_length
  split
  · rename_i hlt
    constructor
    · intro hneg
      exact absurd hneg (by omega)
    · intro hna
      exact absurd (hmem.mp hlt) hna
  · rename_i hge
    constructor
    · intro _
      exact fun hm => hge (hmem.mpr hm)
    · intro _
      norm_num

theorem decodeCheckAux_invalid (dtable : Char → Int) :
    ∀ (l : List Char) (r : Nat), (∃ c ∈ l, dtable c < 0) →
      decodeCheckAux dtable r l = 0 := by
  intro l
  induction l with
  | nil => intro r h; simp at h
  | cons c cs ih =>
    intro r h
    unfold decodeCheckAux
    split
    · rfl
    · rename_i hpos
      rcases h with ⟨x, hx, hneg⟩
      rcases List.mem_cons.mp hx with rfl | hx
      · exact absurd hneg hpos
      · exact ih _ ⟨x, hx, hneg⟩

theorem decodeCheckAux_valid (dtable : Char → Int) :
    ∀ (l : List Char) (r : Nat), (∀ c ∈ l, ¬ dtable c < 0) →
      decodeCheckAux dtable r l =
        List.foldl (fun r c => ((r <<< 6) % U64) ||| u8 (dtable c)) r l := by
  intro l
  induction l with
  | nil => intro r _; rfl
  | cons c cs ih =>
    intro r h
    unfold decodeCheckAux
    split
    · rename_i hneg
      exact absurd hneg (h c (by simp))
    · rw [ih _ (fun x hx => h x (by simp [hx]))]
      rfl

theorem natVal_lt_pow : ∀ (l : List Nat), (∀ d ∈ l, d < 64) → natVal l < 64 ^ l.length := by
  intro l
  induction l with
  | nil => intro _; simp [natVal]
  | cons d l ih =>
    intro h
    have hd : d < 64 := h d (by simp)
    have hl : natVal l < 64 ^ l.length := ih (fun x hx => h x (by simp [hx]))
    simp only [natVal, List.length_cons, Nat.pow_succ]
    calc d * 64 ^ l.length + natVal l
        < d * 64 ^ l.length + 64 ^ l.length := by omega
      _ = (d + 1) * 64 ^ l.length := by ring
      _ ≤ 64 * 64 ^ l.length := Nat.mul_le_mul_right _ (by omega)
      _ = 64 ^ l.length * 64 := by ring

theorem natVal_lt_lex (f : Nat → Char)
    (hmono : ∀ w, w < 64 → ∀ v, v < w → f v < f w) :
    ∀ (l₁ l₂ : List Nat), l₁.length = l₂.length →
      (∀ d ∈ l₁, d < 64) → (∀ d ∈ l₂, d < 64) →
      natVal l₁ < natVal l₂ →
      List.Lex (· < ·) (l₁.map f) (l₂.map f) := by
  intro l₁
  induction l₁ with
  | nil =>
    intro l₂ hlen _ _ hval
    have : l₂ = [] := List.length_eq_zero.mp hlen.symm
    subst this
    exact absurd hval (by simp)
  | cons x xs ih =>
    intro l₂ hlen h₁ h₂ hval
    cases l₂ with
    | nil => simp at hlen
    | cons y ys =>
      have hlen' : xs.length = ys.length := by simpa using hlen
      have hx : x < 64 := h₁ x (by simp)
      have hy : y < 64 := h₂ y (by simp)
      have hxs : ∀ d ∈ xs, d < 64 := fun d hd => h₁ d (by simp [hd])
      have hys : ∀ d ∈ ys, d < 64 := fun d hd => h₂ d (by simp [hd])
      simp only [natVal, hlen'] at hval
      rcases Nat.lt_trichotomy x y with hxy | hxy | hxy
      · exact List.Lex.rel (hmono y hy x hxy)
      · subst hxy
        have hval' : natVal xs < natVal ys := by omega
        exact List.Lex.cons (ih ys hlen' hxs hys hval')
      · exfalso
        have hbys : natVal ys < 64 ^ ys.length := natVal_lt_pow ys hys
        have : y * 64 ^ ys.length + natVal ys < x * 64 ^ ys.length + natVal xs := by
          calc y * 64 ^ ys.length + natVal ys
              < y * 64 ^ ys.length + 64 ^ ys.length := by omega
            _ = (y + 1) * 64 ^ ys.length := by ring
            _ ≤ x * 64 ^ ys.length := Nat.mul_le_mul_right _ (by omega)
            _ ≤ x * 64 ^ ys.length + natVal xs := by omega
        omega

/-- C1: the claim states that `update(received)` computes the new counter from
the counters of the original packed inputs `old` and `received`.  The code
does not: lines 76, 79 and 84 extract the counter from the already shifted
time components.  At the spec's own scenario (old = pack(1000000, 3),
physical = 1500000, received = pack(2000000, 5)) the code produces the counter
(2000000 mod 2^20) + 1 = 951425 instead of 5 + 1 = 6, so the returned value is
pack(2000000, 951425), not the pack(2000000, 6) the claim's formula gives. -/
theorem C1_code_eval :
    updateStep 1500000 (pack 1000000 3) (pack 2000000 5) = pack 2000000 951425 ∧
    (2000000 &&& 0xfffff) + 1 = 951425 ∧
    pack 2000000 951425 ≠ pack 2000000 6 := by decide

/-- C2: evaluation of the merge code at the claim's concrete scenario: with
last = pack(1000000, 3), physical = 1500000 and received = pack(2000000, 5),
the code returns (2000000 << 20) | 951425, not the claimed
(2000000 << 20) | 6, because line 84 computes `extractCount(recTime) + 1` on
the shifted time value instead of the received timestamp's counter. -/
theorem C2_code_eval :
    updateStep 1500000 ((1000000 <<< 20) ||| 3) ((2000000 <<< 20) ||| 5) ≠
      (2000000 <<< 20) ||| 6 ∧
    updateStep 1500000 ((1000000 <<< 20) ||| 3) ((2000000 <<< 20) ||| 5) =
      (2000000 <<< 20) ||| 951425 := by decide

/-- C3: a sequential execution on one clock instance whose returned values are
not strictly increasing, although every counter involved stays far below
2^20.  Three ticks at physical time 2^20 return pack(2^20, 0), pack(2^20, 1),
pack(2^20, 2); a subsequent update with received = pack(2^20, 0) at the same
physical time returns pack(2^20, 1) again — a regression and a duplicate —
because line 76 merges `extractCount(oldTime)` = 0 instead of the stored
counter 2. -/
theorem C3_code_eval :
    runOps 0 [ClockOp.tick (2 ^ 20), ClockOp.tick (2 ^ 20), ClockOp.tick (2 ^ 20),
              ClockOp.update (2 ^ 20) (2 ^ 40)] =
      [2 ^ 40, 2 ^ 40 + 1, 2 ^ 40 + 2, 2 ^ 40 + 1] ∧
    ¬ List.Pairwise (· < ·)
        (runOps 0 [ClockOp.tick (2 ^ 20), ClockOp.tick (2 ^ 20), ClockOp.tick (2 ^ 20),
                   ClockOp.update (2 ^ 20) (2 ^ 40)]) := by decide

/-- C4: the merge result is not always strictly greater than the received
timestamp: from the freshly initialized state old = 0 with physical = 0 and
received = pack(1, 5), the code returns pack(1, 2) < pack(1, 5), because
line 84 computes `extractCount(recTime) + 1` = 2 instead of the received
counter 5 + 1 = 6. -/
theorem C4_code_eval :
    updateStep 0 0 ((1 <<< 20) ||| 5) = (1 <<< 20) ||| 2 ∧
    updateStep 0 0 ((1 <<< 20) ||| 5) < (1 <<< 20) ||| 5 := by decide

/-- C5: for every successful attempt of `tick` with physical-time reading
`physical` and read shared value `old`, the returned value is
pack(oldTime, old.counter + 1) when physical ≤ oldTime and pack(physical, 0)
otherwise, with oldTime = old >> 20 and old.counter = old mod 2^20; and the
concrete scenario: from last = 0 with the physical clock at 1000000 ms, tick
returns pack(1000000, 0), and an immediate second tick with the same reading
returns pack(1000000, 1). -/
theorem C5_tick :
    (∀ physical old : Nat,
      tickStep physical old =
        if physical ≤ old / 2 ^ 20 then pack (old / 2 ^ 20) (old % 2 ^ 20 + 1)
        else pack physical 0) ∧
    tickStep 1000000 0 = pack 1000000 0 ∧
    tickStep 1000000 (tickStep 1000000 0) = pack 1000000 1 := by
  refine ⟨?_, by decide, by decide⟩
  intro physical old
  unfold tickStep extractTime extractCount assembleTimeStamp pack
  have h1 : (0xfffff : Nat) = 2 ^ 20 - 1 := by norm_num
  simp only [h1, Nat.and_pow_two_sub_one_eq_mod, Nat.shiftRight_eq_div_pow,
    Nat.shiftLeft_eq]

/-- C6: for every 64-bit timestamp t, decoding the encoding of t gives back t,
for any encode/decode table pair in which the decode table inverts the
64-symbol encode table (the tables themselves are defined outside src/). -/
theorem C6_roundtrip (etable : Nat → Char) (dtable : Char → Int)
    (hinv : ∀ v, v < 64 → dtable (etable v) = (v : Int))
    (t : Nat) (ht : t < 2 ^ 64) :
    decodeTimeStamp dtable (encodeTimeStamp etable t) = t := by
  unfold decodeTimeStamp encodeTimeStamp
  rw [encodeAux_eq_map]
  have h64 : t < 64 ^ 11 := by
    calc t < 2 ^ 64 := ht
      _ < 64 ^ 11 := by norm_num
  rw [decode_foldl etable dtable hinv _ 0 (fun d hd => digitsAux_mem_lt 11 t d hd)]
  · rw [natVal_digitsAux 11 t h64]
    omega
  · rw [natVal_digitsAux 11 t h64]
    omega

/-- C6 witness: the round trip at the concrete modelled tables and a concrete
64-bit timestamp. -/
theorem C6_roundtrip_witness :
    (∀ v, v < 64 → decodeTableFn (encodeTableFn v) = (v : Int)) ∧
    (123456789123456789 : Nat) < 2 ^ 64 ∧
    decodeTimeStamp decodeTableFn (encodeTimeStamp encodeTableFn 123456789123456789) =
      123456789123456789 :=
  ⟨by decide, by decide,
   C6_roundtrip encodeTableFn decodeTableFn (by decide) 123456789123456789 (by decide)⟩

/-- C7: for 64-bit timestamps a < b whose encodings have equal length, the
encoding of a is lexicographically smaller than the encoding of b, for any
encode table that is strictly increasing in character code with the 6-bit
value it encodes (the table itself is defined outside src/). -/
theorem C7_order (etable : Nat → Char)
    (hmono : ∀ w, w < 64 → ∀ v, v < w → etable v < etable w)
    (a b : Nat) (hb : b < 2 ^ 64) (hab : a < b)
    (hlen : (encodeTimeStamp etable a).length = (encodeTimeStamp etable b).length) :
    List.Lex (· < ·) (encodeTimeStamp etable a) (encodeTimeStamp etable b) := by
  have ha64 : a < 64 ^ 11 := by
    calc a < 2 ^ 64 := lt_trans hab hb
      _ < 64 ^ 11 := by norm_num
  have hb64 : b < 64 ^ 11 := by
    calc b < 2 ^ 64 := hb
      _ < 64 ^ 11 := by norm_num
  unfold encodeTimeStamp at hlen ⊢
  rw [encodeAux_eq_map] at hlen ⊢
  rw [encodeAux_eq_map (t := b)] at hlen ⊢
  apply natVal_lt_lex etable hmono
  · rw [List.length_map, List.length_map] at hlen
    exact hlen
  · exact fun d hd => digitsAux_mem_lt 11 a d hd
  · exact fun d hd => digitsAux_mem_lt 11 b d hd
  · rw [natVal_digitsAux 11 a ha64, natVal_digitsAux 11 b hb64]
    exact hab

/-- C7 witness: order preservation at the concrete modelled table for the
equal-length pair 100 < 200. -/
theorem C7_order_witness :
    (∀ w, w < 64 → ∀ v, v < w → encodeTableFn v < encodeTableFn w) ∧
    (200 : Nat) < 2 ^ 64 ∧ (100 : Nat) < 200 ∧
    (encodeTimeStamp encodeTableFn 100).length = (encodeTimeStamp encodeTableFn 200).length ∧
    List.Lex (· < ·) (encodeTimeStamp encodeTableFn 100) (encodeTimeStamp encodeTableFn 200) :=
  ⟨by decide, by decide, by decide, by decide,
   C7_order encodeTableFn (by decide) 100 200 (by decide) (by decide) (by decide)⟩

/-- C8: a string with any character outside the 64-symbol alphabet decodes to
0 under the checked decode (the loop returns 0 at the first invalid
character, raising no error), and a string of valid alphabet characters
decodes to the same value as the unchecked decode. -/
theorem C8_checked (s : List Char) :
    ((∃ c ∈ s, c ∉ alphabet) → decodeTimeStampWithCheck decodeTableFn s = 0) ∧
    ((∀ c ∈ s, c ∈ alphabet) →
      decodeTimeStampWithCheck decodeTableFn s = decodeTimeStamp decodeTableFn s) := by
  constructor
  · intro h
    rcases h with ⟨c, hc, hna⟩
    exact decodeCheckAux_invalid decodeTableFn s 0
      ⟨c, hc, (decodeTableFn_neg_iff c).mpr hna⟩
  · intro h
    unfold decodeTimeStampWithCheck decodeTimeStamp
    exact decodeCheckAux_valid decodeTableFn s 0
      (fun c hc hneg => (decodeTableFn_neg_iff c).mp hneg (h c hc))

/-- C8 witness: a string with an out-of-alphabet character decodes to 0, and
an all-valid string decodes like the unchecked decode. -/
theorem C8_checked_witness :
    decodeTimeStampWithCheck decodeTableFn ['a', '!', 'b'] = 0 ∧
    decodeTimeStampWithCheck decodeTableFn ['a', 'b'] =
      decodeTimeStamp decodeTableFn ['a', 'b'] :=
  ⟨(C8_checked ['a', '!', 'b']).1 ⟨'!', by decide, by decide⟩,
   (C8_checked ['a', 'b']).2 (by decide)⟩

/-- C9: for every 64-bit timestamp the encoding has at most 11 characters and
never starts with the symbol for the 6-bit value 0; encoding 0 gives the
empty string, and decoding the empty string gives 0 (concrete modelled
table). -/
theorem C9_minimal (t : Nat) (ht : t < 2 ^ 64) :
    (encodeTimeStamp encodeTableFn t).length ≤ 11 ∧
    (encodeTimeStamp encodeTableFn t).head? ≠ some (encodeTableFn 0) ∧
    encodeTimeStamp encodeTableFn 0 = [] ∧
    decodeTimeStamp decodeTableFn [] = 0 := by
  have h64 : t < 64 ^ 11 := by
    calc t < 2 ^ 64 := ht
      _ < 64 ^ 11 := by norm_num
  refine ⟨?_, ?_, by decide, by decide⟩
  · unfold encodeTimeStamp
    rw [encodeAux_eq_map, List.length_map]
    exact digitsAux_length_le 11 t
  · unfold encodeTimeStamp
    rw [encodeAux_eq_map, List.head?_map]
    cases hrec : digitsAux 11 t with
    | nil => simp
    | cons x l =>
      intro hcontra
      simp at hcontra
      have hx64 : x < 64 := digitsAux_mem_lt 11 t x (by rw [hrec]; simp)
      have hxnz : x ≠ 0 := digitsAux_head_ne_zero 11 t x l h64 hrec
      exact encodeTableFn_ne_zero_symbol x hx64 hxnz hcontra

/-- C9 witness: minimality of the encoding at a concrete timestamp. -/
theorem C9_minimal_witness :
    (987654321 : Nat) < 2 ^ 64 ∧
    ((encodeTimeStamp encodeTableFn 987654321).length ≤ 11 ∧
     (encodeTimeStamp encodeTableFn 987654321).head? ≠ some (encodeTableFn 0) ∧
     encodeTimeStamp encodeTableFn 0 = [] ∧
     decodeTimeStamp decodeTableFn [] = 0) :=
  ⟨by decide, C9_minimal 987654321 (by decide)⟩

/-- C10 counterexample: the claim quantifies over every physical-time
reading, but at physical = 2^44 (with old = 0) the shift `physical << 20`
wraps modulo 2^64 and `tick` returns exactly 0. -/
theorem C10_counterexample : tickStep (2 ^ 44) 0 = 0 := by decide

/-- C10 (amended): `tick` and `update` never return 0 — the returned value is
at least 1 — provided the physical-time reading fits the 44-bit time field
(physical < 2^44, true of any millisecond reading the header's clock can
produce for the next five hundred thousand years) and the stored and received
values are 64-bit.  Hence the sentinel 0 of the checked decode never equals
an issued timestamp. -/
theorem C10_nonzero (physical old received : Nat)
    (hp : physical < 2 ^ 44) (ho : old < 2 ^ 64) (hr : received < 2 ^ 64) :
    1 ≤ tickStep physical old ∧ 1 ≤ updateStep physical old received := by
  have hot := extractTime_lt old ho
  have hrt := extractTime_lt received hr
  constructor
  · unfold tickStep
    split
    · exact assembleTimeStamp_pos _ _ hot (Or.inr (by omega))
    · exact assembleTimeStamp_pos _ _ hp (Or.inl (by omega))
  · simp only [updateStep]
    have hnt : max (max (extractTime old) physical) (extractTime received) < 2 ^ 44 := by
      omega
    split
    · split
      · exact assembleTimeStamp_pos _ _ hnt (Or.inr (by omega))
      · exact assembleTimeStamp_pos _ _ hnt (Or.inr (by omega))
    · split
      · exact assembleTimeStamp_pos _ _ hnt (Or.inr (by omega))
      · apply assembleTimeStamp_pos _ _ hnt
        left
        omega

/-- C10 witness: both operations return a positive value at a concrete
in-range input. -/
theorem C10_witness :
    (1000 : Nat) < 2 ^ 44 ∧ (0 : Nat) < 2 ^ 64 ∧ (5 : Nat) < 2 ^ 64 ∧
    (1 ≤ tickStep 1000 0 ∧ 1 ≤ updateStep 1000 0 5) :=
  ⟨by decide, by decide, by decide,
   C10_nonzero 1000 0 5 (by decide) (by decide) (by decide)⟩

end HLC
